import Mathlib

/-!
Shallow embedding of the `simi` agent core (repository hwkim3330/sim,
C++ sources under src/agent) and proofs about it.

Conventions of the embedding:
* C++ `std::string` is modelled as Lean `String` / `List Char`; lengths are
  counted in characters (the C++ code counts bytes; on the inputs considered
  here the two agree and both sides of every round trip use the same count).
* The ECMAScript regexes used by `Agent::parse_tool_calls` are modelled by
  explicit scanning functions that reproduce the leftmost-match /
  greedy-and-lazy backtracking behaviour of
  `<tool_call>\s*name:\s*(\w+)\s*arguments:\s*([\s\S]*?)</tool_call>` and
  `(\w+):\s*(.+)`.  `\s` is the ASCII whitespace class, `\w` is
  `[A-Za-z0-9_]`, and `.` excludes the line terminators `\n` and `\r`.
* `std::map<std::string,std::string>` (tool-call arguments) is modelled as an
  association list with overwrite-on-insert; no claim observes the iteration
  order of the map.
* Exceptions are modelled with `Except String`; `std::optional` with `Option`.
-/

namespace Simi

/-! ### Character classes -/

/-- The ECMAScript `\s` class as matched by `std::regex` (ASCII part),
which is also the whitespace class skipped by `operator>>` on streams. -/
def isWs (c : Char) : Bool :=
  c == ' ' || c == '\t' || c == '\n' || c == '\r' || c == '\x0b' || c == '\x0c'

/-- The ECMAScript `\w` class: letters, digits and underscore. -/
def isWordChar (c : Char) : Bool :=
  c.isAlphanum || c == '_'

/-- Line terminators excluded by the ECMAScript `.` metacharacter. -/
def isLineTerm (c : Char) : Bool :=
  c == '\n' || c == '\r'

/-- Characters removed by the explicit value trimming in
`Agent::parse_tool_calls` (`find_first_not_of(" \t\n\r")`). -/
def isTrimChar (c : Char) : Bool :=
  c == ' ' || c == '\t' || c == '\n' || c == '\r'

theorem ws_not_word {c : Char} (h : isWs c = true) : isWordChar c = false := by
  simp only [isWs, Bool.or_eq_true, beq_iff_eq] at h
  rcases h with ((((h | h) | h) | h) | h) | h <;> subst h <;> decide

theorem word_not_ws {c : Char} (h : isWordChar c = true) : isWs c = false := by
  cases hw : isWs c
  · rfl
  · exact absurd h (by simp [ws_not_word hw])

/-! ### Decimal rendering (`std::to_string`, `operator<<` on integers) -/

/-- One decimal digit as a character. -/
def digitChar10 (d : Nat) : Char :=
  match d with
  | 0 => '0' | 1 => '1' | 2 => '2' | 3 => '3' | 4 => '4'
  | 5 => '5' | 6 => '6' | 7 => '7' | 8 => '8' | _ => '9'

/-- Numeric value of a decimal digit character (0 for non-digits). -/
def digitVal (c : Char) : Nat :=
  match c with
  | '0' => 0 | '1' => 1 | '2' => 2 | '3' => 3 | '4' => 4
  | '5' => 5 | '6' => 6 | '7' => 7 | '8' => 8 | '9' => 9
  | _ => 0

/-- Fuel-based recursion for decimal digits (fuel keeps every definition
kernel-computable; `decDigits` supplies enough fuel). -/
def decDigitsAux : Nat → Nat → List Char
  | 0, _ => []
  | f + 1, n =>
    if n < 10 then [digitChar10 n]
    else decDigitsAux f (n / 10) ++ [digitChar10 (n % 10)]

/-- Decimal digits of a natural number, most significant first; the decimal
rendering used by `std::to_string` and stream output. -/
def decDigits (n : Nat) : List Char :=
  decDigitsAux (n + 1) n

/-- Decimal rendering as a `String`. -/
def natStr (n : Nat) : String :=
  String.mk (decDigits n)

/-- Left fold reading a decimal digit run, as `operator>>` accumulates it. -/
def digitFold (ds : List Char) : Nat :=
  ds.foldl (fun a c => a * 10 + digitVal c) 0

theorem digitVal_digitChar10 {d : Nat} (h : d < 10) :
    digitVal (digitChar10 d) = d := by
  interval_cases d <;> rfl

theorem digitChar10_isDigit (d : Nat) : (digitChar10 d).isDigit = true := by
  unfold digitChar10
  split <;> decide

theorem decDigitsAux_all_digits :
    ∀ (f n : Nat), n < f → ∀ c ∈ decDigitsAux f n, c.isDigit = true := by
  intro f
  induction f with
  | zero => intro n hn; omega
  | succ f ih =>
    intro n hn c hc
    rw [decDigitsAux] at hc
    split at hc
    · simp only [List.mem_singleton] at hc
      subst hc
      exact digitChar10_isDigit n
    · next h =>
      rcases List.mem_append.mp hc with h1 | h1
      · exact ih (n / 10) (by omega) c h1
      · simp only [List.mem_singleton] at h1
        subst h1
        exact digitChar10_isDigit (n % 10)

theorem decDigits_all_digits (n : Nat) : ∀ c ∈ decDigits n, c.isDigit = true :=
  decDigitsAux_all_digits (n + 1) n (by omega)

theorem decDigits_ne_nil (n : Nat) : decDigits n ≠ [] := by
  rw [decDigits, decDigitsAux]
  split <;> simp

theorem digitFold_aux (a : Nat) (ds : List Char) :
    ds.foldl (fun a c => a * 10 + digitVal c) a =
      a * 10 ^ ds.length + digitFold ds := by
  induction ds generalizing a with
  | nil => simp [digitFold]
  | cons c t ih =>
    simp only [List.foldl_cons, digitFold, List.length_cons]
    rw [ih (a * 10 + digitVal c), ih (0 * 10 + digitVal c)]
    rw [show (0 * 10 + digitVal c) = digitVal c by omega]
    rw [pow_succ]
    ring

theorem digitFold_decDigitsAux :
    ∀ (f n : Nat), n < f → digitFold (decDigitsAux f n) = n := by
  intro f
  induction f with
  | zero => intro n hn; omega
  | succ f ih =>
    intro n hn
    rw [decDigitsAux]
    split
    · next h =>
      simp [digitFold, List.foldl, digitVal_digitChar10 h]
    · next h =>
      have hd : digitFold (decDigitsAux f (n / 10)) = n / 10 := ih (n / 10) (by omega)
      simp only [digitFold, List.foldl_append, List.foldl_cons, List.foldl_nil]
      rw [show (decDigitsAux f (n / 10)).foldl (fun a c => a * 10 + digitVal c) 0
            = n / 10 from hd]
      rw [digitVal_digitChar10 (Nat.mod_lt _ (by omega))]
      omega

theorem digitFold_decDigits (n : Nat) : digitFold (decDigits n) = n :=
  digitFold_decDigitsAux (n + 1) n (by omega)

/-! ### Literal matching primitives for the regex model -/

/-- Strip a literal from the front of a character list
(`none` when the literal is not a prefix). -/
def stripLit : List Char → List Char → Option (List Char)
  | [], s => some s
  | _ :: _, [] => none
  | c :: l, d :: s => if c = d then stripLit l s else none

/-- Split the input at the first occurrence of a literal: returns the text
before the occurrence and the text after it. -/
def upToLit (lit : List Char) : List Char → Option (List Char × List Char)
  | [] =>
    match stripLit lit [] with
    | some r => some ([], r)
    | none => none
  | c :: t =>
    match stripLit lit (c :: t) with
    | some r => some ([], r)
    | none =>
      match upToLit lit t with
      | some (pre, rest) => some (c :: pre, rest)
      | none => none

/-- Whether a literal occurs anywhere in the input. -/
def containsLit (lit : List Char) : List Char → Bool
  | [] => (stripLit lit []).isSome
  | c :: t => (stripLit lit (c :: t)).isSome || containsLit lit t

theorem stripLit_of_append (l s : List Char) : stripLit l (l ++ s) = some s := by
  induction l with
  | nil => rfl
  | cons c t ih => simp [stripLit, ih]

theorem stripLit_some_length {l s r : List Char} (h : stripLit l s = some r) :
    r.length + l.length = s.length := by
  induction l generalizing s with
  | nil =>
    simp only [stripLit, Option.some.injEq] at h
    subst h
    simp
  | cons c t ih =>
    cases s with
    | nil => simp [stripLit] at h
    | cons d u =>
      simp only [stripLit] at h
      split at h
      · have := ih h
        simp only [List.length_cons]
        omega
      · exact absurd h (by simp)

theorem stripLit_head_ne {c : Char} {l s : List Char} {d : Char}
    (h : d ≠ c) : stripLit (c :: l) (d :: s) = none := by
  simp [stripLit, Ne.symm h]

theorem stripLit_some_suffix {l s r : List Char} (h : stripLit l s = some r) :
    r <:+ s := by
  induction l generalizing s with
  | nil =>
    simp only [stripLit, Option.some.injEq] at h
    subst h
    exact List.suffix_rfl
  | cons c t ih =>
    cases s with
    | nil => simp [stripLit] at h
    | cons d u =>
      simp only [stripLit] at h
      split at h
      · exact (ih h).trans (List.suffix_cons d u)
      · exact absurd h (by simp)

theorem upToLit_some_length {lit s pre rest : List Char}
    (hl : lit ≠ []) (h : upToLit lit s = some (pre, rest)) :
    rest.length + lit.length + pre.length = s.length := by
  induction s generalizing pre with
  | nil =>
    simp only [upToLit] at h
    cases hs : stripLit lit ([] : List Char) with
    | none => rw [hs] at h; simp at h
    | some r =>
      rw [hs] at h
      simp only [Option.some.injEq, Prod.mk.injEq] at h
      obtain ⟨h1, h2⟩ := h
      subst h1; subst h2
      have := stripLit_some_length hs
      simp only [List.length_nil, List.length_cons] at this ⊢
      omega
  | cons c t ih =>
    simp only [upToLit] at h
    cases hs : stripLit lit (c :: t) with
    | some r =>
      rw [hs] at h
      simp only [Option.some.injEq, Prod.mk.injEq] at h
      obtain ⟨h1, h2⟩ := h
      subst h1; subst h2
      have := stripLit_some_length hs
      simp only [List.length_nil, List.length_cons] at this ⊢
      omega
    | none =>
      rw [hs] at h
      cases hu : upToLit lit t with
      | none => rw [hu] at h; simp at h
      | some pr =>
        obtain ⟨p, r⟩ := pr
        rw [hu] at h
        simp only [Option.some.injEq, Prod.mk.injEq] at h
        obtain ⟨h1, h2⟩ := h
        subst h1; subst h2
        have := ih hu
        simp only [List.length_cons] at *
        omega

theorem upToLit_exact {c0 : Char} {lt pre rest : List Char} (hpre : c0 ∉ pre) :
    upToLit (c0 :: lt) (pre ++ (c0 :: lt) ++ rest) = some (pre, rest) := by
  induction pre with
  | nil =>
    simp only [List.nil_append, List.cons_append, upToLit, List.append_eq]
    have : stripLit (c0 :: lt) (c0 :: (lt ++ rest)) = some rest := by
      have := stripLit_of_append (c0 :: lt) rest
      simpa using this
    rw [this]
  | cons d t ih =>
    have hd : d ≠ c0 := by
      intro h; exact hpre (h ▸ List.mem_cons_self d t)
    have hstrip : stripLit (c0 :: lt) (d :: (t ++ (c0 :: lt) ++ rest)) = none :=
      stripLit_head_ne hd
    simp only [List.cons_append, upToLit, List.append_eq, List.append_assoc]
    simp only [List.cons_append, List.append_assoc] at hstrip
    have ih2 := ih (fun h => hpre (List.mem_cons_of_mem d h))
    simp only [List.append_assoc, List.cons_append] at ih2
    rw [hstrip, ih2]

/-! ### Data model (src/agent/include/simi/types.hpp) -/

/-- `enum class Role` of `types.hpp`. -/
inductive Role where
  | System
  | User
  | Assistant
  | Tool
deriving DecidableEq, Repr

/-- Numeric value of a `Role`, as produced by `static_cast<int>` with the
declaration order of the enum. -/
def roleToNat : Role → Nat
  | .System => 0
  | .User => 1
  | .Assistant => 2
  | .Tool => 3

/-- Inverse cast `static_cast<Role>(int)`; values outside 0..3 are undefined
behaviour in C++ and are modelled arbitrarily as `System`. -/
def roleOfNat : Nat → Role
  | 0 => .System
  | 1 => .User
  | 2 => .Assistant
  | 3 => .Tool
  | _ => .System

/-- `struct Message` of `types.hpp`. -/
structure Message where
  role : Role
  content : String
  tool_name : Option String
  tool_call_id : Option String
  images : List String
deriving DecidableEq, Repr

/-- `Message::system`. -/
def Message.system (content : String) : Message :=
  ⟨.System, content, none, none, []⟩

/-- `Message::user`. -/
def Message.user (content : String) (images : List String) : Message :=
  ⟨.User, content, none, none, images⟩

/-- `Message.assistant`. -/
def Message.assistant (content : String) : Message :=
  ⟨.Assistant, content, none, none, []⟩

/-- `Message::tool_result`. -/
def Message.tool_result (name call_id result : String) : Message :=
  ⟨.Tool, result, some name, some call_id, []⟩

/-- `struct ToolCall` of `types.hpp`; the `std::map` of arguments is an
association list with overwrite-on-insert. -/
structure ToolCall where
  id : String
  name : String
  arguments : List (String × String)
deriving DecidableEq, Repr

/-- `struct ToolResult` of `types.hpp`. -/
structure ToolResult where
  call_id : String
  success : Bool
  output : String
  error : Option String
deriving DecidableEq, Repr

/-- `enum class AgentState` of `types.hpp`. -/
inductive AgentState where
  | Idle
  | Thinking
  | CallingTool
  | WaitingForUser
  | Error
  | Done
deriving DecidableEq, Repr

/-! ### Tool-call parsing (`Agent::parse_tool_calls`, agent.cpp:233-275)

The C++ code runs the ECMAScript regex
`<tool_call>\s*name:\s*(\w+)\s*arguments:\s*([\s\S]*?)</tool_call>`
with `sregex_iterator` (leftmost matches, search resumes after each match)
and, inside each match, `(\w+):\s*(.+)` over the captured argument text.
`matchBlock` reproduces one match attempt anchored at the start of the
input, including the only effective backtracking point of the outer regex:
when the maximal `\w+` run is not followed (after `\s*`) by `arguments:`,
the engine can still give the run's `arguments` suffix back to the literal
if a `:` immediately follows the run. -/

/-- The literal `<tool_call>`. -/
def litOpen : List Char :=
  ['<', 't', 'o', 'o', 'l', '_', 'c', 'a', 'l', 'l', '>']

/-- The literal `</tool_call>`. -/
def litClose : List Char :=
  ['<', '/', 't', 'o', 'o', 'l', '_', 'c', 'a', 'l', 'l', '>']

/-- The literal `name:`. -/
def litName : List Char := ['n', 'a', 'm', 'e', ':']

/-- The literal `arguments`. -/
def litArgsWord : List Char := ['a', 'r', 'g', 'u', 'm', 'e', 'n', 't', 's']

/-- The literal `arguments:`. -/
def litArgs : List Char := litArgsWord ++ [':']

/-- One anchored attempt of the outer tool-call regex.  Returns the captured
name, the captured argument text and the input remaining after the match. -/
def matchBlock (s : List Char) : Option (List Char × List Char × List Char) :=
  match stripLit litOpen s with
  | none => none
  | some s1 =>
    match stripLit litName (s1.dropWhile isWs) with
    | none => none
    | some s3 =>
      let s4 := s3.dropWhile isWs
      let run := s4.takeWhile isWordChar
      if run = [] then none
      else
        let s5 := s4.drop run.length
        match stripLit litArgs (s5.dropWhile isWs) with
        | some s7 =>
          -- greedy choice: the whole `\w+` run is the name
          match upToLit litClose (s7.dropWhile isWs) with
          | some (args, rest) => some (run, args, rest)
          | none => none
        | none =>
          -- backtracking: the run ends in `arguments`, immediately followed
          -- by `:`; the name is the run without that suffix
          if litArgsWord.length < run.length ∧
              run.drop (run.length - litArgsWord.length) = litArgsWord then
            match s5 with
            | ':' :: s7 =>
              match upToLit litClose (s7.dropWhile isWs) with
              | some (args, rest) =>
                some (run.take (run.length - litArgsWord.length), args, rest)
              | none => none
            | _ => none
          else none

theorem lenDropWhileLe (p : Char → Bool) (l : List Char) :
    (l.dropWhile p).length ≤ l.length := by
  induction l with
  | nil => simp
  | cons c t ih =>
    by_cases h : p c
    · rw [List.dropWhile_cons_of_pos h]
      simp only [List.length_cons]
      omega
    · rw [List.dropWhile_cons_of_neg h]

theorem matchBlock_some_length {s n a rest : List Char}
    (h : matchBlock s = some (n, a, rest)) : rest.length < s.length := by
  unfold matchBlock at h
  cases h1 : stripLit litOpen s with
  | none => rw [h1] at h; exact absurd h (by simp)
  | some s1 =>
    rw [h1] at h
    simp only at h
    have hl1 : s1.length + litOpen.length = s.length := stripLit_some_length h1
    cases h2 : stripLit litName (s1.dropWhile isWs) with
    | none => rw [h2] at h; exact absurd h (by simp)
    | some s3 =>
      rw [h2] at h
      simp only at h
      have hw1 : (s1.dropWhile isWs).length ≤ s1.length :=
        lenDropWhileLe _ _
      have hl2 : s3.length + litName.length = (s1.dropWhile isWs).length :=
        stripLit_some_length h2
      split at h
      · exact absurd h (by simp)
      · next hrun =>
        have hw2 : ((s3.dropWhile isWs).drop
            ((s3.dropWhile isWs).takeWhile isWordChar).length).length
            ≤ s3.length := by
          calc _ ≤ (s3.dropWhile isWs).length := by
                simp [List.length_drop]
            _ ≤ s3.length := lenDropWhileLe _ _
        set s4 := s3.dropWhile isWs with hs4
        set run := s4.takeWhile isWordChar with hrundef
        set s5 := s4.drop run.length with hs5
        cases h3 : stripLit litArgs (s5.dropWhile isWs) with
        | some s7 =>
          rw [h3] at h
          simp only at h
          have hl3 : s7.length + litArgs.length = (s5.dropWhile isWs).length :=
            stripLit_some_length h3
          have hw3 : (s5.dropWhile isWs).length ≤ s5.length :=
            lenDropWhileLe _ _
          cases h4 : upToLit litClose (s7.dropWhile isWs) with
          | none => rw [h4] at h; exact absurd h (by simp)
          | some pr =>
            obtain ⟨args, rest'⟩ := pr
            rw [h4] at h
            simp only [Option.some.injEq, Prod.mk.injEq] at h
            obtain ⟨-, -, hr⟩ := h
            have hrl : rest'.length = rest.length := by rw [hr]
            have hl4 : rest'.length + litClose.length + args.length =
                (s7.dropWhile isWs).length :=
              upToLit_some_length (by simp [litClose]) h4
            have hw4 : (s7.dropWhile isWs).length ≤ s7.length :=
              lenDropWhileLe _ _
            simp only [litOpen, litName, litArgs, litArgsWord, litClose] at *
            simp only [List.length_cons, List.length_append,
              List.length_nil] at *
            omega
        | none =>
          rw [h3] at h
          simp only at h
          split at h
          · cases hs5m : s5 with
            | nil => rw [hs5m] at h; exact absurd h (by simp)
            | cons c s7 =>
              rw [hs5m] at h
              split at h
              · next s7b heq =>
                injection heq with heq1 heq2
                subst heq2
                cases h4 : upToLit litClose (s7.dropWhile isWs) with
                | none => rw [h4] at h; exact absurd h (by simp)
                | some pr =>
                  obtain ⟨args, rest'⟩ := pr
                  rw [h4] at h
                  simp only [Option.some.injEq, Prod.mk.injEq] at h
                  obtain ⟨-, -, hr⟩ := h
                  have hrl : rest'.length = rest.length := by rw [hr]
                  have hl4 : rest'.length + litClose.length + args.length =
                      (s7.dropWhile isWs).length :=
                    upToLit_some_length (by simp [litClose]) h4
                  have hw4 : (s7.dropWhile isWs).length ≤ s7.length :=
                    lenDropWhileLe _ _
                  have hs7 : s7.length < s5.length := by
                    rw [hs5m]; simp
                  simp only [litOpen, litName, litClose] at *
                  simp only [List.length_cons, List.length_append,
                    List.length_nil] at *
                  omega
              · exact absurd h (by simp)
          · exact absurd h (by simp)

/-- Fuel-based driver for `scanBlocks`. -/
def scanBlocksF : Nat → List Char → List (List Char × List Char)
  | 0, _ => []
  | f + 1, s =>
    match matchBlock s with
    | some (n, a, rest) => (n, a) :: scanBlocksF f rest
    | none =>
      match s with
      | [] => []
      | _ :: t => scanBlocksF f t

/-- Successive leftmost matches of the outer regex, advancing one character
after a failed attempt and past the match after a successful one — the
behaviour of `std::sregex_iterator`.  The input length is always enough fuel
because every step strictly shortens the input. -/
def scanBlocks (s : List Char) : List (List Char × List Char) :=
  scanBlocksF s.length s

theorem scanBlocksF_nil (f : Nat) : scanBlocksF f [] = [] := by
  cases f <;> rfl

theorem scanBlocksF_adequate :
    ∀ (f g : Nat) (s : List Char), s.length ≤ f → s.length ≤ g →
      scanBlocksF f s = scanBlocksF g s := by
  intro f
  induction f with
  | zero =>
    intro g s hf hg
    have : s = [] := List.eq_nil_of_length_eq_zero (by omega)
    subst this
    rw [scanBlocksF_nil, scanBlocksF_nil]
  | succ f ih =>
    intro g s hf hg
    cases s with
    | nil => rw [scanBlocksF_nil, scanBlocksF_nil]
    | cons c t =>
      cases g with
      | zero => simp at hg
      | succ g =>
        rw [scanBlocksF, scanBlocksF]
        cases hm : matchBlock (c :: t) with
        | some pr =>
          obtain ⟨n, a, rest⟩ := pr
          have hlt := matchBlock_some_length hm
          simp only [List.length_cons] at hf hg hlt
          simp only
          rw [ih g rest (by omega) (by omega)]
        | none =>
          simp only [List.length_cons] at hf hg
          simp only
          exact ih g t (by omega) (by omega)

theorem scanBlocks_eq_scanBlocksF {f : Nat} {s : List Char} (h : s.length ≤ f) :
    scanBlocks s = scanBlocksF f s :=
  scanBlocksF_adequate s.length f s (le_refl _) h

/-- The key part `(\w+):` of the argument regex, anchored at the input start:
a nonempty maximal word run immediately followed by a colon.  (Giving back
characters from the run never helps, because every shorter run is followed by
a word character rather than `:`.) -/
def runKey (s : List Char) : Option (List Char × List Char) :=
  let r := s.takeWhile isWordChar
  if r = [] then none
  else
    match s.drop r.length with
    | ':' :: rest => some (r, rest)
    | _ => none

/-- The explicit trimming done on argument values in `parse_tool_calls`
(`find_first_not_of(" \t\n\r")` on both ends). -/
def trimValue (v : List Char) : List Char :=
  ((v.dropWhile isTrimChar).reverse.dropWhile isTrimChar).reverse

theorem lenTakeWhileLe (p : Char → Bool) (l : List Char) :
    (l.takeWhile p).length ≤ l.length := by
  induction l with
  | nil => simp
  | cons c t ih =>
    by_cases h : p c
    · rw [List.takeWhile_cons_of_pos h]
      simp only [List.length_cons]
      omega
    · rw [List.takeWhile_cons_of_neg h]
      simp

theorem runKey_some_length {s k rest : List Char} (h : runKey s = some (k, rest)) :
    rest.length < s.length := by
  unfold runKey at h
  simp only at h
  split at h
  · exact absurd h (by simp)
  · next hne =>
    split at h
    · next heq =>
      simp only [Option.some.injEq, Prod.mk.injEq] at h
      obtain ⟨-, hr⟩ := h
      have h1 : (s.drop (s.takeWhile isWordChar).length).length =
          s.length - (s.takeWhile isWordChar).length := List.length_drop _ _
      have h2 : (s.takeWhile isWordChar).length ≤ s.length := lenTakeWhileLe _ _
      have h3 : 0 < (s.takeWhile isWordChar).length :=
        List.length_pos.mpr hne
      rw [heq] at h1
      subst hr
      simp only [List.length_cons] at h1
      omega
    · exact absurd h (by simp)

/-- Fuel-based driver for the argument scan `(\w+):\s*(.+)` run by
`sregex_iterator` over the captured argument text.  On a successful match the
value is the greedy `.+` capture (up to a line terminator), trimmed; when the
greedy `\s*` hits the end of input, ECMAScript backtracking gives the spaces
back one at a time until `.+` can match a single character that is not a line
terminator, so the value is the last such character, and nothing but line
terminators remains to scan. -/
def parseArgsF : Nat → List Char → List (String × String)
  | 0, _ => []
  | f + 1, s =>
    match runKey s with
    | some (k, afterColon) =>
      match hsk : afterColon.dropWhile isWs with
      | v0 :: vrest =>
        let v := (v0 :: vrest).takeWhile (fun c => !isLineTerm c)
        (String.mk k, String.mk (trimValue v)) ::
          parseArgsF f ((v0 :: vrest).drop v.length)
      | [] =>
        match afterColon.reverse.find? (fun c => !isLineTerm c) with
        | some c => [(String.mk k, String.mk (trimValue [c]))]
        | none => []
    | none =>
      match s with
      | [] => []
      | _ :: t => parseArgsF f t

/-- All matches of the argument regex over the captured argument text. -/
def parseArgsScan (s : List Char) : List (String × String) :=
  parseArgsF s.length s

/-- `call.arguments[key] = value` on a `std::map`: overwrite an existing key,
otherwise insert. -/
def insertArg : List (String × String) → String → String → List (String × String)
  | [], k, v => [(k, v)]
  | (k0, v0) :: t, k, v =>
    if k0 = k then (k0, v) :: t else (k0, v0) :: insertArg t k v

/-- The argument map built by the inner loop of `parse_tool_calls`. -/
def parseArguments (a : List Char) : List (String × String) :=
  (parseArgsScan a).foldl (fun m kv => insertArg m kv.1 kv.2) []

/-- Sequential ids `call_0`, `call_1`, … assigned by `parse_tool_calls`
within one invocation. -/
def numberCalls (i : Nat) : List (List Char × List Char) → List ToolCall
  | [] => []
  | (n, a) :: rest =>
    ⟨"call_" ++ natStr i, String.mk n, parseArguments a⟩ :: numberCalls (i + 1) rest

/-- `Agent::parse_tool_calls` (agent.cpp:233-275). -/
def parse_tool_calls (response : String) : List ToolCall :=
  numberCalls 0 (scanBlocks response.toList)

/-! ### Tools and the registry (tools.hpp, tool_registry.cpp) -/

/-- `ToolParameter` of `types.hpp`. -/
structure ToolParameter where
  name : String
  type : String
  description : String
  required : Bool
  default_value : Option String
deriving DecidableEq, Repr

/-- `ToolSchema` of `types.hpp`. -/
structure ToolSchema where
  name : String
  description : String
  parameters : List ToolParameter
deriving DecidableEq, Repr

/-- The virtual `Tool` interface of `tools.hpp`: a schema, an availability
check (re-evaluated per call, modelled as a constant of the run) and an
execution function that may throw. -/
structure Tool where
  get_schema : ToolSchema
  is_available : Bool
  execute : List (String × String) → Except String ToolResult

/-- `Tool::name()` = `get_schema().name`. -/
def Tool.name (t : Tool) : String :=
  t.get_schema.name

/-- The registry's `std::map<std::string, std::unique_ptr<Tool>>`, as an
association list with overwrite-on-insert. -/
def ToolRegistry := List (String × Tool)

/-- `ToolRegistry::get_tool`: lookup by name. -/
def ToolRegistry.get_tool : ToolRegistry → String → Option Tool
  | [], _ => none
  | (n, t) :: rest, name => if n = name then some t else ToolRegistry.get_tool rest name

/-- `ToolRegistry::register_tool`: `tools_[name] = tool` (overwrite by name). -/
def ToolRegistry.register_tool : ToolRegistry → Tool → ToolRegistry
  | [], t => [(t.name, t)]
  | (n, t0) :: rest, t =>
    if n = t.name then (n, t) :: rest else (n, t0) :: ToolRegistry.register_tool rest t

/-- `ToolRegistry::execute` (tool_registry.cpp:79-96). -/
def ToolRegistry.execute (reg : ToolRegistry) (call : ToolCall) : ToolResult :=
  match reg.get_tool call.name with
  | none => ⟨call.id, false, "", some ("Unknown tool: " ++ call.name)⟩
  | some tool =>
    if tool.is_available = false then
      ⟨call.id, false, "", some ("Tool not available: " ++ call.name)⟩
    else
      match tool.execute call.arguments with
      | .ok result => { result with call_id := call.id }
      | .error e => ⟨call.id, false, "", some ("Tool execution failed: " ++ e)⟩

/-- One tool section of `ToolRegistry::format_tools_prompt`. -/
def formatToolSection (t : Tool) : String :=
  if t.is_available = false then ""
  else
    let schema := t.get_schema
    "### " ++ schema.name ++ "\n" ++ schema.description ++ "\n\n**Parameters:**\n"
      ++ String.join (schema.parameters.map (fun param =>
          "- `" ++ param.name ++ "` (" ++ param.type
            ++ (if param.required then ", required" else "")
            ++ "): " ++ param.description
            ++ (match param.default_value with
                | some d => " (default: " ++ d ++ ")"
                | none => "")
            ++ "\n"))
      ++ "\n"

/-- `ToolRegistry::format_tools_prompt` (tool_registry.cpp:41-77). -/
def ToolRegistry.format_tools_prompt (reg : ToolRegistry) : String :=
  "## Available Tools\n\nYou can use these tools by outputting a tool call in this format:\n"
    ++ "```\n<tool_call>\nname: tool_name\narguments:\n  param1: value1\n  param2: value2\n</tool_call>\n```\n\n"
    ++ String.join (reg.map (fun p => formatToolSection p.2))

/-! ### Conversation context (context.cpp) -/

/-- `Context::estimate_tokens` (context.cpp:53-60): roughly 4 characters per
token, summed over all messages. -/
def estimate_tokens (msgs : List Message) : Nat :=
  msgs.foldl (fun total m => total + m.content.length / 4) 0

/-- One pass of the eviction loop body (context.cpp:138-143): skip a leading
System message, then erase the iterator's message if it exists. -/
def trimStep : List Message → List Message
  | [] => []
  | m :: rest =>
    if m.role = Role.System then
      match rest with
      | [] => [m]
      | _ :: rs => m :: rs
    else rest

/-- Fuel-based driver for `Context::trim_if_needed`. -/
def trimIfNeededF : Nat → Nat → List Message → List Message
  | 0, _, msgs => msgs
  | f + 1, maxTok, msgs =>
    if maxTok < estimate_tokens msgs ∧ 2 < msgs.length then
      trimIfNeededF f maxTok (trimStep msgs)
    else msgs

/-- `Context::trim_if_needed` (context.cpp:136-145): while the estimate
exceeds the budget and more than two messages remain, remove the oldest
non-System message.  Each pass removes one message, so the initial length is
enough fuel. -/
def trim_if_needed (maxTok : Nat) (msgs : List Message) : List Message :=
  trimIfNeededF msgs.length maxTok msgs

/-- `Context::add_message` (context.cpp:20-23). -/
def add_message (maxTok : Nat) (msgs : List Message) (m : Message) : List Message :=
  trim_if_needed maxTok (msgs ++ [m])

/-- `Context::clear` (context.cpp:35-41): remove every non-System message. -/
def Context.clear (msgs : List Message) : List Message :=
  msgs.filter (fun m => m.role = Role.System)

/-- `Context::save` (context.cpp:65-76): for each message, one line with the
numeric role, one line with the content length, then the content and a
newline.  Modelled as the character stream written to the file. -/
def Context.save (msgs : List Message) : List Char :=
  (msgs.map (fun m =>
    decDigits (roleToNat m.role) ++ '\n' ::
      (decDigits m.content.toList.length ++ '\n' ::
        (m.content.toList ++ ['\n'])))).flatten

/-- `operator>>` into an integer: skip stream whitespace, then read a digit
run (the saved format never contains signs).  Fails when no digit follows. -/
def readNat (s : List Char) : Option (Nat × List Char) :=
  let s1 := s.dropWhile isWs
  let ds := s1.takeWhile Char.isDigit
  if ds = [] then none
  else some (digitFold ds, s1.drop ds.length)

/-- Fuel-based driver for `Context::load`: the `while (file >> role >> len)`
loop, with `ignore()` skipping one character and `read` taking `len`
characters (padded with the `'\0'` fill of the preallocated buffer when the
stream runs short — unreachable on well-formed input). -/
def loadF : Nat → List Char → List Message
  | 0, _ => []
  | f + 1, s =>
    match readNat s with
    | none => []
    | some (roleInt, s1) =>
      match readNat s1 with
      | none => []
      | some (len, s2) =>
        let s3 := s2.drop 1
        let content := s3.take len ++ List.replicate (len - s3.length) '\x00'
        let s4 := (s3.drop len).drop 1
        ⟨roleOfNat roleInt, String.mk content, none, none, []⟩ :: loadF f s4

/-- `Context::load` (context.cpp:81-105), on the character stream of the
file.  Each loop pass consumes at least one character, so the input length
plus one is enough fuel. -/
def Context.load (s : List Char) : List Message :=
  loadF (s.length + 1) s

/-! ### The agent (agent.cpp) -/

/-- The parts of `Agent::Config` the reasoning loop reads. -/
structure AgentConfig where
  max_iterations : Nat
  max_consecutive_errors : Nat
  system_prompt : String

/-- The mutable fields of `Agent::Impl` observable by the claims. -/
structure AgentSt where
  history : List Message
  state : AgentState
  stopRequested : Bool
deriving Repr

/-- The model-backend step of `react_loop` (agent.cpp:166-182): a loaded VLM
is preferred, otherwise a loaded LLM, otherwise `throw "No model loaded"`.
A backend is a pure prompt-to-response function; the streaming variant
accumulates the same text. -/
def generate (vlm llm : Option (String → String)) (prompt : String) :
    Except String String :=
  match vlm with
  | some g => .ok (g prompt)
  | none =>
    match llm with
    | some g => .ok (g prompt)
    | none => .error "No model loaded"

/-- `Agent::format_tool_results` (agent.cpp:277-296). -/
def format_tool_results (results : List (ToolCall × ToolResult)) : String :=
  "Tool Results:\n" ++ String.join (results.map (fun pr =>
    "\n### " ++ pr.1.name ++ " (id: " ++ pr.1.id ++ ")\n"
      ++ (if pr.2.success then
            "Status: Success\nOutput:\n" ++ pr.2.output ++ "\n"
          else
            "Status: Failed\nError: " ++ (pr.2.error.getD "Unknown error") ++ "\n"
              ++ (if pr.2.output = "" then ""
                  else "Output:\n" ++ pr.2.output ++ "\n"))))

/-- One message rendered by `Agent::build_prompt` (agent.cpp:308-326). -/
def promptOfMessage (m : Message) : String :=
  match m.role with
  | .User =>
    "<|im_start|>user\n"
      ++ String.join (m.images.map (fun _ => "<|vision_start|><|image_pad|><|vision_end|>"))
      ++ m.content ++ "<|im_end|>\n"
  | .Assistant => "<|im_start|>assistant\n" ++ m.content ++ "<|im_end|>\n"
  | .Tool => "<|im_start|>tool\n" ++ m.content ++ "<|im_end|>\n"
  | .System => ""

/-- `Agent::build_prompt` (agent.cpp:298-332). -/
def build_prompt (cfg : AgentConfig) (reg : ToolRegistry) (messages : List Message) :
    String :=
  "<|im_start|>system\n" ++ cfg.system_prompt ++ "\n\n"
    ++ reg.format_tools_prompt ++ "<|im_end|>\n"
    ++ String.join (messages.map promptOfMessage)
    ++ "<|im_start|>assistant\n"

/-- The `for (const auto& call : tool_calls)` body of `react_loop`
(agent.cpp:197-217): dispatch each call in order, stopping at a stop request;
a failure increments the consecutive-error counter and, at the threshold,
appends the diagnostic to the final response and breaks out of the batch
(only the batch — the enclosing while loop is not exited); a success resets
the counter to zero.  Returns the recorded (call, result) pairs, the final
counter and the accumulated response text. -/
def execBatch (reg : ToolRegistry) (stop : Bool) (maxErr : Nat) :
    List ToolCall → Nat → String →
      List (ToolCall × ToolResult) × Nat × String
  | [], consec, acc => ([], consec, acc)
  | call :: rest, consec, acc =>
    if stop then ([], consec, acc)
    else
      let result := reg.execute call
      if result.success then
        let (rs, k, a) := execBatch reg stop maxErr rest 0 acc
        ((call, result) :: rs, k, a)
      else
        let consec2 := consec + 1
        if maxErr ≤ consec2 then
          ([(call, result)], consec2,
            acc ++ "Too many consecutive errors. Stopping.\nLast error: "
              ++ result.error.getD "Unknown error")
        else
          let (rs, k, a) := execBatch reg stop maxErr rest consec2 acc
          ((call, result) :: rs, k, a)

/-- Everything `react_loop` and `process` produce that a claim observes:
the final agent state, the per-iteration batches of dispatched calls (the
stream of `tool_callback` events), the number of model invocations and the
returned text or propagated fault. -/
structure LoopOut where
  st : AgentSt
  batches : List (List (ToolCall × ToolResult))
  modelCalls : Nat
  result : Except String String

/-- `Agent::react_loop` (agent.cpp:151-231), by recursion on the remaining
iterations `max_iterations - iterations`.  When the fuel runs out the
while-condition `iterations < max_iterations` is false and the
`[Reached maximum iterations]` marker is appended; a natural exit on the
last permitted iteration also appends it, because the C++ check
`iterations >= max_iterations` runs after the loop regardless of how the
loop was left. -/
def reactLoopF (vlm llm : Option (String → String)) (reg : ToolRegistry)
    (cfg : AgentConfig) :
    Nat → AgentSt → Nat → String → List (List (ToolCall × ToolResult)) → Nat →
      LoopOut
  | 0, st, _, acc, bs, mc =>
    ⟨st, bs, mc, .ok (acc ++ "\n[Reached maximum iterations]")⟩
  | r + 1, st, consec, acc, bs, mc =>
    if st.stopRequested then ⟨st, bs, mc, .ok acc⟩
    else
      match generate vlm llm (build_prompt cfg reg st.history) with
      | .error e => ⟨st, bs, mc, .error e⟩
      | .ok response =>
        match parse_tool_calls response with
        | [] =>
          ⟨st, bs, mc + 1,
            .ok (if r = 0 then acc ++ response ++ "\n[Reached maximum iterations]"
                 else acc ++ response)⟩
        | call :: calls =>
          let st1 := { st with state := AgentState.CallingTool }
          let out := execBatch reg st1.stopRequested cfg.max_consecutive_errors
            (call :: calls) consec acc
          let hist2 := st1.history
            ++ [Message.tool_result "tools" "" (format_tool_results out.1)]
          let st2 : AgentSt := { st1 with history := hist2, state := AgentState.Thinking }
          reactLoopF vlm llm reg cfg r st2 out.2.1 out.2.2 (bs ++ [out.1]) (mc + 1)

/-- `Agent::react_loop` started with `iterations = 0`,
`consecutive_errors = 0` and an empty response accumulator. -/
def react_loop (vlm llm : Option (String → String)) (reg : ToolRegistry)
    (cfg : AgentConfig) (st : AgentSt) : LoopOut :=
  reactLoopF vlm llm reg cfg cfg.max_iterations st 0 "" [] 0

/-- `Agent::process` (agent.cpp:63-81): clear the stop flag, set the state to
Thinking, append the user message, run the ReAct loop, then append the
assistant response and set the state to Done.  A fault from the loop
propagates before the assistant message is appended or the state changes. -/
def Agent.process (cfg : AgentConfig) (vlm llm : Option (String → String))
    (reg : ToolRegistry) (st0 : AgentSt) (message : String)
    (images : List String) : LoopOut :=
  let st1 : AgentSt :=
    ⟨st0.history ++ [Message.user message images], AgentState.Thinking, false⟩
  let out := react_loop vlm llm reg cfg st1
  match out.result with
  | .ok t =>
    let hist2 := out.st.history ++ [Message.assistant t]
    let st2 : AgentSt := { out.st with history := hist2, state := AgentState.Done }
    ⟨st2, out.batches, out.modelCalls, .ok t⟩
  | .error e => ⟨out.st, out.batches, out.modelCalls, .error e⟩

/-- `Agent::reset` (agent.cpp:97-105): clear the whole history, return to
Idle, clear the stop flag. -/
def Agent.reset (_st : AgentSt) : AgentSt :=
  ⟨[], AgentState.Idle, false⟩

/-! ### Generic list helpers -/

theorem takeWhile_append_of_all {p : Char → Bool} {xs : List Char}
    (h : ∀ x ∈ xs, p x = true) {c : Char} (hc : p c = false) (ys : List Char) :
    (xs ++ c :: ys).takeWhile p = xs := by
  induction xs with
  | nil =>
    simp only [List.nil_append]
    rw [List.takeWhile_cons_of_neg (by simp [hc])]
  | cons x t ih =>
    have hx : p x = true := h x (List.mem_cons_self x t)
    simp only [List.cons_append]
    rw [List.takeWhile_cons_of_pos hx, ih (fun y hy => h y (List.mem_cons_of_mem x hy))]

theorem dropWhile_append_of_all {p : Char → Bool} {xs : List Char}
    (h : ∀ x ∈ xs, p x = true) {c : Char} (hc : p c = false) (ys : List Char) :
    (xs ++ c :: ys).dropWhile p = c :: ys := by
  induction xs with
  | nil =>
    simp only [List.nil_append]
    rw [List.dropWhile_cons_of_neg (by simp [hc])]
  | cons x t ih =>
    have hx : p x = true := h x (List.mem_cons_self x t)
    simp only [List.cons_append]
    rw [List.dropWhile_cons_of_pos hx, ih (fun y hy => h y (List.mem_cons_of_mem x hy))]

theorem dropWhile_append_keep {p : Char → Bool} (xs : List Char) {c : Char}
    (hc : p c = false) (ys : List Char) :
    (xs ++ c :: ys).dropWhile p = xs.dropWhile p ++ c :: ys := by
  induction xs with
  | nil =>
    simp only [List.nil_append, List.dropWhile_nil]
    rw [List.dropWhile_cons_of_neg (by simp [hc])]
  | cons x t ih =>
    by_cases hx : p x = true
    · simp only [List.cons_append]
      rw [List.dropWhile_cons_of_pos hx, List.dropWhile_cons_of_pos hx, ih]
    · have hx' : p x = false := by revert hx; cases p x <;> simp
      simp only [List.cons_append]
      rw [List.dropWhile_cons_of_neg (by simp [hx']),
        List.dropWhile_cons_of_neg (by simp [hx'])]
      simp

theorem mem_of_mem_dropWhile {p : Char → Bool} {c : Char} {l : List Char}
    (h : c ∈ l.dropWhile p) : c ∈ l :=
  (List.dropWhile_suffix p).subset h

theorem stringMk_toList (s : String) : String.mk s.toList = s := rfl

/-! ### Claims C1, C2, C3 -/

/-- The agent state every run in the concrete scenarios starts from. -/
def idleSt : AgentSt := ⟨[], AgentState.Idle, false⟩

/-- A model backend whose every response carries exactly one tool call. -/
def genAlwaysToolCall : String → String :=
  fun _ => "<tool_call>\nname: t\narguments:\n  a: b\n</tool_call>"

/-- C1: with `max_consecutive_errors = 3` the claim says the loop terminates
before a fourth tool call is attempted once three dispatches in a row fail.
The code does not: the `break` at agent.cpp:212 leaves only the per-batch
`for` loop, the enclosing `while` keeps iterating, and with
`max_iterations = 5`, a backend that always requests one tool call and an
empty registry (so every dispatch fails with `Unknown tool`), five tool
calls are dispatched — the fourth and fifth after the threshold was hit —
and every one of them failed. -/
theorem C1_fourth_tool_call_attempted :
    (Agent.process ⟨5, 3, "sys"⟩ (some genAlwaysToolCall) none [] idleSt
        "go" []).batches.flatten.length = 5 ∧
    (∀ pr ∈ (Agent.process ⟨5, 3, "sys"⟩ (some genAlwaysToolCall) none [] idleSt
        "go" []).batches.flatten, pr.2.success = false) := by
  constructor
  · decide
  · decide

/-- C2 counterexample: the spec's end-to-end scenario feeds the parser the
literal response delimited by `<call>`/`</call>`; the code's regex only
recognizes `<tool_call>`/`</tool_call>`, so that response parses to zero
requests rather than one. -/
theorem C2_counterexample :
    parse_tool_calls "<call>\nname: list_directory\narguments:\n  path: .\n</call>"
      = [] := by
  decide

/-- C2 (amended): with the delimiters the code actually uses, the response
yields exactly one request named `list_directory` whose single argument is
`path = "."`. -/
theorem C2_parse_list_directory :
    parse_tool_calls
        "<tool_call>\nname: list_directory\narguments:\n  path: .\n</tool_call>"
      = [⟨"call_0", "list_directory", [("path", ".")]⟩] := by
  decide

/-- A registered, available tool whose execution always throws. -/
def boomTool : Tool :=
  ⟨⟨"boom", "always throws", []⟩, true, fun _ => .error "boom failure"⟩

/-- C3 counterexample: when a tool's execution faults, the fault's message
does not become the error of the result verbatim — the registry prepends
`Tool execution failed: `. -/
theorem C3_counterexample :
    (ToolRegistry.execute [("boom", boomTool)] ⟨"id7", "boom", []⟩).success = false ∧
    (ToolRegistry.execute [("boom", boomTool)] ⟨"id7", "boom", []⟩).error ≠
      some "boom failure" ∧
    (ToolRegistry.execute [("boom", boomTool)] ⟨"id7", "boom", []⟩).error =
      some "Tool execution failed: boom failure" := by
  refine ⟨rfl, ?_, rfl⟩
  decide

/-- C3 (amended): dispatch always returns a result carrying the request's id
(overwriting whatever the capability set); an unknown name yields a failure
`Unknown tool: <name>`; a registered but unavailable tool yields
`Tool not available: <name>`; a faulting execution is converted — never
propagated — into a failure whose error is the fault's message prefixed with
`Tool execution failed: `. -/
theorem C3_dispatch_normalizes (reg : ToolRegistry) (call : ToolCall) :
    (reg.execute call).call_id = call.id ∧
    (reg.get_tool call.name = none →
      reg.execute call = ⟨call.id, false, "", some ("Unknown tool: " ++ call.name)⟩) ∧
    (∀ t, reg.get_tool call.name = some t → t.is_available = false →
      reg.execute call =
        ⟨call.id, false, "", some ("Tool not available: " ++ call.name)⟩) ∧
    (∀ t e, reg.get_tool call.name = some t → t.is_available = true →
      t.execute call.arguments = .error e →
      reg.execute call =
        ⟨call.id, false, "", some ("Tool execution failed: " ++ e)⟩) ∧
    (∀ t r, reg.get_tool call.name = some t → t.is_available = true →
      t.execute call.arguments = .ok r →
      reg.execute call = { r with call_id := call.id }) := by
  refine ⟨?_, ?_, ?_, ?_, ?_⟩
  · unfold ToolRegistry.execute
    cases hg : reg.get_tool call.name with
    | none => rfl
    | some t =>
      simp only
      split
      · rfl
      · cases ht : t.execute call.arguments with
        | ok r => rfl
        | error e => rfl
  · intro hg
    unfold ToolRegistry.execute
    rw [hg]
  · intro t hg hav
    unfold ToolRegistry.execute
    rw [hg]
    simp [hav]
  · intro t e hg hav hex
    unfold ToolRegistry.execute
    rw [hg]
    simp only [hav, hex]
    simp
  · intro t r hg hav hex
    unfold ToolRegistry.execute
    rw [hg]
    simp only [hav, hex]
    simp

/-- C3 witness: the normalization theorem applied to a concrete faulting
tool. -/
theorem C3_witness :
    ToolRegistry.execute [("boom", boomTool)] ⟨"id7", "boom", []⟩ =
      ⟨"id7", false, "", some "Tool execution failed: boom failure"⟩ :=
  (C3_dispatch_normalizes [("boom", boomTool)] ⟨"id7", "boom", []⟩).2.2.2.1
    boomTool "boom failure" rfl rfl rfl

/-! ### Claim C6 — history eviction -/

theorem trimIfNeededF_sys (maxTok : Nat) (s : Message) (hs : s.role = Role.System) :
    ∀ (f : Nat) (rest : List Message), rest.length ≤ f →
      ∃ k, trimIfNeededF f maxTok (s :: rest) = s :: rest.drop k ∧
        (estimate_tokens (s :: rest.drop k) ≤ maxTok ∨ (s :: rest.drop k).length ≤ 2) := by
  intro f
  induction f with
  | zero =>
    intro rest hlen
    have : rest = [] := List.eq_nil_of_length_eq_zero (by omega)
    subst this
    refine ⟨0, rfl, Or.inr (by simp)⟩
  | succ f ih =>
    intro rest hlen
    rw [trimIfNeededF]
    by_cases hcond : maxTok < estimate_tokens (s :: rest) ∧ 2 < (s :: rest).length
    · rw [if_pos hcond]
      have hlen2 : 2 ≤ rest.length := by
        have := hcond.2
        simp only [List.length_cons] at this
        omega
      obtain ⟨r, rs, hrest⟩ : ∃ r rs, rest = r :: rs := by
        cases rest with
        | nil => simp at hlen2
        | cons r rs => exact ⟨r, rs, rfl⟩
      subst hrest
      have hstep : trimStep (s :: r :: rs) = s :: rs := by
        unfold trimStep
        simp only [if_pos hs]
      rw [hstep]
      obtain ⟨k, hk, hexit⟩ := ih rs (by simp at hlen ⊢; omega)
      refine ⟨k + 1, ?_, ?_⟩
      · rw [hk, List.drop_succ_cons]
      · rw [List.drop_succ_cons]
        exact hexit
    · rw [if_neg hcond]
      refine ⟨0, by rw [List.drop_zero], ?_⟩
      rw [List.drop_zero]
      rcases not_and_or.mp hcond with h | h
      · exact Or.inl (by omega)
      · exact Or.inr (by omega)

/-- C6: appending a turn to a history headed by the pinned System turn
evicts oldest-first — the result is the System turn followed by a final
segment (a `drop`) of the remaining turns with the new one appended, so the
System turn is never removed, the relative order of survivors is unchanged,
and the loop has run until the estimate fits the budget or at most two turns
remain. -/
theorem C6_eviction (maxTok : Nat) (s : Message) (rest : List Message)
    (m : Message) (hs : s.role = Role.System) :
    ∃ k, add_message maxTok (s :: rest) m = s :: (rest ++ [m]).drop k ∧
      (estimate_tokens (s :: (rest ++ [m]).drop k) ≤ maxTok ∨
        (s :: (rest ++ [m]).drop k).length ≤ 2) := by
  unfold add_message trim_if_needed
  have hshape : (s :: rest) ++ [m] = s :: (rest ++ [m]) := by simp
  rw [hshape]
  exact trimIfNeededF_sys maxTok s hs (s :: (rest ++ [m])).length (rest ++ [m])
    (by simp)

/-- C6 witness: with a budget of one token, a System turn and one long User
turn, appending another long User turn evicts the old User turn and keeps
the System turn. -/
theorem C6_witness :
    ∃ k,
      add_message 1 [Message.system "s", Message.user "aaaaaaaaaaaaaaaa" []]
          (Message.user "bbbbbbbb" []) =
        Message.system "s" ::
          ([Message.user "aaaaaaaaaaaaaaaa" [], Message.user "bbbbbbbb" []].drop k) ∧
      (estimate_tokens (Message.system "s" ::
          ([Message.user "aaaaaaaaaaaaaaaa" [], Message.user "bbbbbbbb" []].drop k)) ≤ 1 ∨
        (Message.system "s" ::
          ([Message.user "aaaaaaaaaaaaaaaa" [], Message.user "bbbbbbbb" []].drop k)).length ≤ 2) :=
  C6_eviction 1 (Message.system "s") [Message.user "aaaaaaaaaaaaaaaa" []]
    (Message.user "bbbbbbbb" []) rfl

/-! ### Claim C8 — save/load round trip -/

theorem digit_not_ws {c : Char} (h : c.isDigit = true) : isWs c = false := by
  cases hw : isWs c
  · rfl
  · exfalso
    simp only [isWs, Bool.or_eq_true, beq_iff_eq] at hw
    rcases hw with ((((hw | hw) | hw) | hw) | hw) | hw <;> subst hw <;> simp at h

theorem loadF_nil (f : Nat) : loadF f [] = [] := by
  cases f <;> rfl

theorem readNat_decDigits (n : Nat) (tail : List Char) :
    readNat (decDigits n ++ '\n' :: tail) = some (n, '\n' :: tail) := by
  obtain ⟨d, ds, hd⟩ : ∃ d ds, decDigits n = d :: ds := by
    cases h : decDigits n with
    | nil => exact absurd h (decDigits_ne_nil n)
    | cons d ds => exact ⟨d, ds, rfl⟩
  have hall : ∀ c ∈ decDigits n, c.isDigit = true := decDigits_all_digits n
  have hdw : (decDigits n ++ '\n' :: tail).dropWhile isWs = decDigits n ++ '\n' :: tail := by
    rw [hd, List.cons_append,
      List.dropWhile_cons_of_neg (by
        simp [digit_not_ws (hall d (by rw [hd]; exact List.mem_cons_self d ds))])]
  have htw : (decDigits n ++ '\n' :: tail).takeWhile Char.isDigit = decDigits n :=
    takeWhile_append_of_all hall (by decide) tail
  unfold readNat
  simp only [hdw, htw]
  rw [if_neg (by simp [decDigits_ne_nil n])]
  rw [digitFold_decDigits, List.drop_left]

theorem readNat_nl_decDigits (n : Nat) (tail : List Char) :
    readNat ('\n' :: (decDigits n ++ '\n' :: tail)) = some (n, '\n' :: tail) := by
  have h1 : ('\n' :: (decDigits n ++ '\n' :: tail)).dropWhile isWs =
      (decDigits n ++ '\n' :: tail).dropWhile isWs :=
    List.dropWhile_cons_of_pos (by decide)
  have := readNat_decDigits n tail
  unfold readNat at this ⊢
  simp only [h1]
  exact this

theorem roleOfNat_roleToNat (r : Role) : roleOfNat (roleToNat r) = r := by
  cases r <;> rfl

theorem loadF_save_cons (m : Message) (tail : List Char) (f : Nat) :
    loadF (f + 1)
        ((decDigits (roleToNat m.role) ++ '\n' ::
          (decDigits m.content.toList.length ++ '\n' ::
            (m.content.toList ++ ['\n']))) ++ tail) =
      ⟨m.role, m.content, none, none, []⟩ :: loadF f tail := by
  have hshape :
      (decDigits (roleToNat m.role) ++ '\n' ::
        (decDigits m.content.toList.length ++ '\n' ::
          (m.content.toList ++ ['\n']))) ++ tail =
      decDigits (roleToNat m.role) ++ '\n' ::
        (decDigits m.content.toList.length ++ '\n' ::
          (m.content.toList ++ '\n' :: tail)) := by
    simp [List.append_assoc]
  rw [hshape]
  rw [loadF]
  rw [readNat_decDigits]
  simp only
  rw [readNat_nl_decDigits]
  simp only
  rw [List.drop_one, List.tail_cons]
  have htake : (m.content.toList ++ '\n' :: tail).take m.content.toList.length =
      m.content.toList := List.take_left _ _
  have hdrop : (m.content.toList ++ '\n' :: tail).drop m.content.toList.length =
      '\n' :: tail := List.drop_left _ _
  rw [htake, hdrop]
  have hlen : m.content.toList.length -
      (m.content.toList ++ '\n' :: tail).length = 0 := by
    simp only [List.length_append, List.length_cons]
    omega
  rw [hlen]
  simp only [List.replicate_zero, List.append_nil, List.drop_one, List.tail_cons]
  rw [roleOfNat_roleToNat]
  rfl

theorem save_length_ge (msgs : List Message) :
    msgs.length ≤ (Context.save msgs).length := by
  induction msgs with
  | nil => simp [Context.save]
  | cons m rest ih =>
    have hne : decDigits (roleToNat m.role) ≠ [] := decDigits_ne_nil _
    unfold Context.save at ih ⊢
    simp only [List.map_cons, List.flatten_cons, List.length_append,
      List.length_cons]
    have : 1 ≤ (decDigits (roleToNat m.role)).length := by
      cases h : decDigits (roleToNat m.role) with
      | nil => exact absurd h hne
      | cons d ds => simp
    simp only [List.length_cons] at *
    omega

theorem loadF_save (msgs : List Message) :
    ∀ f, msgs.length ≤ f →
      loadF f (Context.save msgs) =
        msgs.map (fun m => ⟨m.role, m.content, none, none, []⟩) := by
  induction msgs with
  | nil =>
    intro f _
    have : Context.save [] = [] := by simp [Context.save]
    rw [this, loadF_nil, List.map_nil]
  | cons m rest ih =>
    intro f hf
    obtain ⟨f', hf'⟩ : ∃ f', f = f' + 1 := by
      cases f with
      | zero => simp at hf
      | succ f' => exact ⟨f', rfl⟩
    subst hf'
    have hsave : Context.save (m :: rest) =
        (decDigits (roleToNat m.role) ++ '\n' ::
          (decDigits m.content.toList.length ++ '\n' ::
            (m.content.toList ++ ['\n']))) ++ Context.save rest := by
      simp [Context.save]
    rw [hsave, loadF_save_cons, ih f' (by simp at hf; omega), List.map_cons]

/-- C8: serializing a history with `Context::save` and reading it back with
`Context::load` reproduces the same ordered sequence of turns with role and
content preserved exactly — including empty content and content containing
newlines, since the format is length-prefixed — while attachments, tool
names and call ids come back as their defaults. -/
theorem C8_roundtrip (msgs : List Message) :
    Context.load (Context.save msgs) =
      msgs.map (fun m => ⟨m.role, m.content, none, none, []⟩) ∧
    (Context.load (Context.save msgs)).map (fun m => (m.role, m.content)) =
      msgs.map (fun m => (m.role, m.content)) := by
  have h := loadF_save msgs ((Context.save msgs).length + 1)
    (by have := save_length_ge msgs; omega)
  unfold Context.load
  refine ⟨h, ?_⟩
  rw [h, List.map_map]
  rfl

/-! ### Claims C7, C9, C10 — the reasoning loop -/

theorem reactLoopF_always_tool_calls (g : String → String)
    (hg : ∀ p, parse_tool_calls (g p) ≠ [])
    (llm : Option (String → String)) (reg : ToolRegistry) (cfg : AgentConfig) :
    ∀ (f : Nat) (st : AgentSt) (consec : Nat) (acc : String)
      (bs : List (List (ToolCall × ToolResult))) (mc : Nat),
      st.stopRequested = false →
      (∃ pre, (reactLoopF (some g) llm reg cfg f st consec acc bs mc).result =
          Except.ok (pre ++ "\n[Reached maximum iterations]")) ∧
      (reactLoopF (some g) llm reg cfg f st consec acc bs mc).modelCalls = mc + f ∧
      (reactLoopF (some g) llm reg cfg f st consec acc bs mc).batches.length =
        bs.length + f := by
  intro f
  induction f with
  | zero =>
    intro st consec acc bs mc _
    exact ⟨⟨acc, rfl⟩, rfl, rfl⟩
  | succ f ih =>
    intro st consec acc bs mc hstop
    rw [reactLoopF]
    rw [if_neg (by rw [hstop]; simp)]
    have hgen : generate (some g) llm (build_prompt cfg reg st.history) =
        .ok (g (build_prompt cfg reg st.history)) := rfl
    rw [hgen]
    simp only
    cases hp : parse_tool_calls (g (build_prompt cfg reg st.history)) with
    | nil => exact absurd hp (hg _)
    | cons c cs =>
      simp only
      have := ih
        { st with
            state := AgentState.CallingTool,
            history := ({ st with state := AgentState.CallingTool } : AgentSt).history
              ++ [Message.tool_result "tools" ""
                  (format_tool_results
                    (execBatch reg
                      ({ st with state := AgentState.CallingTool } : AgentSt).stopRequested
                      cfg.max_consecutive_errors (c :: cs) consec acc).1)] }
      have h2 := this
      exact ⟨(ih _ _ _ _ _ (by simpa using hstop)).1,
        by rw [(ih _ _ _ _ _ (by simpa using hstop)).2.1]; omega,
        by rw [(ih _ _ _ _ _ (by simpa using hstop)).2.2]; simp; omega⟩

/-- C7: for a backend whose every response contains at least one tool call,
the loop can only exit through the iteration cap, and the returned text then
ends with the `[Reached maximum iterations]` marker; with
`max_iterations = 1` the run makes exactly one model call and dispatches
exactly one batch of tool calls before exiting.  (The error cap never exits
the loop — see C1 — so every abnormal exit is an iteration-cap exit and
always carries the marker.) -/
theorem C7_iteration_cap (g : String → String)
    (hg : ∀ p, parse_tool_calls (g p) ≠ [])
    (llm : Option (String → String)) (reg : ToolRegistry)
    (hist0 : List Message) (state0 : AgentState) (stop0 : Bool)
    (n maxErr : Nat) (sys msg : String) (imgs : List String) :
    (∃ t pre,
      (Agent.process ⟨n, maxErr, sys⟩ (some g) llm reg ⟨hist0, state0, stop0⟩
          msg imgs).result = Except.ok t ∧
        t = pre ++ "\n[Reached maximum iterations]") ∧
    (n = 1 →
      (Agent.process ⟨n, maxErr, sys⟩ (some g) llm reg ⟨hist0, state0, stop0⟩
          msg imgs).modelCalls = 1 ∧
      (Agent.process ⟨n, maxErr, sys⟩ (some g) llm reg ⟨hist0, state0, stop0⟩
          msg imgs).batches.length = 1) := by
  have hloop := reactLoopF_always_tool_calls g hg llm reg ⟨n, maxErr, sys⟩ n
    ⟨hist0 ++ [Message.user msg imgs], AgentState.Thinking, false⟩ 0 "" [] 0 rfl
  obtain ⟨⟨pre, hres⟩, hmc, hbs⟩ := hloop
  unfold Agent.process react_loop
  simp only
  rw [hres]
  simp only
  refine ⟨⟨pre ++ "\n[Reached maximum iterations]", pre, rfl, rfl⟩, ?_⟩
  intro hn1
  subst hn1
  exact ⟨by rw [hmc], by rw [hbs]; rfl⟩

/-- C7 witness: the cap theorem at `max_iterations = 1` with a concrete
always-tool-calling backend. -/
theorem C7_witness :
    (∃ t pre,
      (Agent.process ⟨1, 3, "sys"⟩ (some genAlwaysToolCall) none [] idleSt
          "go" []).result = Except.ok t ∧
        t = pre ++ "\n[Reached maximum iterations]") ∧
    ((Agent.process ⟨1, 3, "sys"⟩ (some genAlwaysToolCall) none [] idleSt
        "go" []).modelCalls = 1 ∧
      (Agent.process ⟨1, 3, "sys"⟩ (some genAlwaysToolCall) none [] idleSt
        "go" []).batches.length = 1) := by
  have hga : ∀ p, parse_tool_calls (genAlwaysToolCall p) ≠ [] := by
    intro p
    show parse_tool_calls
      "<tool_call>\nname: t\narguments:\n  a: b\n</tool_call>" ≠ []
    decide
  have h := C7_iteration_cap genAlwaysToolCall hga none [] []
    AgentState.Idle false 1 3 "sys" "go" []
  exact ⟨h.1, h.2 rfl⟩

/-- C9: with neither backend loaded (and a positive iteration cap, as in
every real configuration — the default is 50), `process` first appends the
user turn, then the loop's first model call faults with `No model loaded`;
the fault propagates out of `process`, so no assistant turn is appended and
the state is still `Thinking`, never `Error` or `Done`. -/
theorem C9_no_model (reg : ToolRegistry) (hist0 : List Message)
    (state0 : AgentState) (stop0 : Bool) (n maxErr : Nat) (sys msg : String)
    (imgs : List String) (hn : 0 < n) :
    (Agent.process ⟨n, maxErr, sys⟩ none none reg ⟨hist0, state0, stop0⟩
        msg imgs).result = Except.error "No model loaded" ∧
    (Agent.process ⟨n, maxErr, sys⟩ none none reg ⟨hist0, state0, stop0⟩
        msg imgs).st.history = hist0 ++ [Message.user msg imgs] ∧
    (Agent.process ⟨n, maxErr, sys⟩ none none reg ⟨hist0, state0, stop0⟩
        msg imgs).st.state = AgentState.Thinking := by
  obtain ⟨n', rfl⟩ : ∃ n', n = n' + 1 := ⟨n - 1, by omega⟩
  unfold Agent.process react_loop
  simp only
  rw [reactLoopF]
  rw [if_neg (by simp)]
  have hgen : generate none none
      (build_prompt ⟨n' + 1, maxErr, sys⟩ reg
        (⟨hist0 ++ [Message.user msg imgs], AgentState.Thinking, false⟩ : AgentSt).history) =
      .error "No model loaded" := rfl
  rw [hgen]
  exact ⟨rfl, rfl, rfl⟩

/-- C9 witness: the no-model theorem at a concrete configuration. -/
theorem C9_witness :
    (Agent.process ⟨50, 3, "sys"⟩ none none [] ⟨[], AgentState.Idle, false⟩
        "hi" []).result = Except.error "No model loaded" ∧
    (Agent.process ⟨50, 3, "sys"⟩ none none [] ⟨[], AgentState.Idle, false⟩
        "hi" []).st.history = [] ++ [Message.user "hi" []] ∧
    (Agent.process ⟨50, 3, "sys"⟩ none none [] ⟨[], AgentState.Idle, false⟩
        "hi" []).st.state = AgentState.Thinking :=
  C9_no_model [] [] AgentState.Idle false 50 3 "sys" "hi" [] (by omega)

theorem reactLoopF_history (vlm llm : Option (String → String))
    (reg : ToolRegistry) (cfg : AgentConfig) :
    ∀ (f : Nat) (st : AgentSt) (consec : Nat) (acc : String)
      (bs : List (List (ToolCall × ToolResult))) (mc : Nat),
      ∃ ts newBs,
        (∀ x ∈ ts, x.role = Role.Tool) ∧
        (reactLoopF vlm llm reg cfg f st consec acc bs mc).st.history =
          st.history ++ ts ∧
        (reactLoopF vlm llm reg cfg f st consec acc bs mc).batches = bs ++ newBs ∧
        newBs.length = ts.length := by
  intro f
  induction f with
  | zero =>
    intro st consec acc bs mc
    exact ⟨[], [], by simp, by simp [reactLoopF], by simp [reactLoopF], rfl⟩
  | succ f ih =>
    intro st consec acc bs mc
    rw [reactLoopF]
    by_cases hstop : st.stopRequested
    · rw [if_pos hstop]
      exact ⟨[], [], by simp, by simp, by simp, rfl⟩
    · rw [if_neg hstop]
      cases hgen : generate vlm llm (build_prompt cfg reg st.history) with
      | error e =>
        exact ⟨[], [], by simp, by simp, by simp, rfl⟩
      | ok response =>
        simp only
        cases hp : parse_tool_calls response with
        | nil =>
          exact ⟨[], [], by simp, by simp, by simp, rfl⟩
        | cons c cs =>
          simp only
          set st1 : AgentSt := { st with state := AgentState.CallingTool } with hst1
          set results := (execBatch reg st1.stopRequested
            cfg.max_consecutive_errors (c :: cs) consec acc).1 with hresults
          set toolMsg := Message.tool_result "tools" "" (format_tool_results results)
            with htm
          obtain ⟨ts', newBs', hroles, hhist, hbatch, hlen⟩ := ih
            { st1 with history := st1.history ++ [toolMsg], state := AgentState.Thinking }
            (execBatch reg st1.stopRequested cfg.max_consecutive_errors
              (c :: cs) consec acc).2.1
            (execBatch reg st1.stopRequested cfg.max_consecutive_errors
              (c :: cs) consec acc).2.2
            (bs ++ [results]) (mc + 1)
          refine ⟨toolMsg :: ts', results :: newBs', ?_, ?_, ?_, ?_⟩
          · intro x hx
            rcases List.mem_cons.mp hx with h | h
            · subst h; rfl
            · exact hroles x h
          · rw [hhist]
            simp [hst1]
          · rw [hbatch]
            simp
          · simp [hlen]

/-- C10: the agent's own history is append-only and untrimmed: a completed
`process()` call extends the previous history by exactly the user turn, one
Tool-role turn per tool-calling iteration (one per dispatched batch) and the
final assistant turn, in that order with nothing removed or reordered; and
`reset()` is the only removal, deleting every turn. -/
theorem C10_append_only (cfg : AgentConfig) (vlm llm : Option (String → String))
    (reg : ToolRegistry) (hist0 : List Message) (state0 : AgentState)
    (stop0 : Bool) (msg : String) (imgs : List String) :
    (∀ t, (Agent.process cfg vlm llm reg ⟨hist0, state0, stop0⟩ msg imgs).result =
        Except.ok t →
      ∃ ts, (∀ x ∈ ts, x.role = Role.Tool) ∧
        (Agent.process cfg vlm llm reg ⟨hist0, state0, stop0⟩ msg imgs).st.history =
          hist0 ++ Message.user msg imgs :: (ts ++ [Message.assistant t]) ∧
        ts.length =
          (Agent.process cfg vlm llm reg ⟨hist0, state0, stop0⟩ msg imgs).batches.length) ∧
    (∀ st : AgentSt, (Agent.reset st).history = []) := by
  constructor
  · intro t hres
    obtain ⟨ts, newBs, hroles, hhist, hbatch, hlen⟩ :=
      reactLoopF_history vlm llm reg cfg cfg.max_iterations
        ⟨hist0 ++ [Message.user msg imgs], AgentState.Thinking, false⟩ 0 "" [] 0
    unfold Agent.process react_loop at hres ⊢
    simp only at hres ⊢
    cases hr : (reactLoopF vlm llm reg cfg cfg.max_iterations
        ⟨hist0 ++ [Message.user msg imgs], AgentState.Thinking, false⟩ 0 "" [] 0).result with
    | error e =>
      simp only [hr] at hres
      exact absurd hres (by simp)
    | ok t' =>
      simp only [hr] at hres ⊢
      have ht : t' = t := by
        simpa using hres
      subst ht
      refine ⟨ts, hroles, ?_, ?_⟩
      · rw [hhist]
        simp
      · rw [hbatch]
        simp only [List.nil_append]
        exact hlen.symm
  · intro st
    rfl

/-- C10 witness: a run whose single response is a plain answer grows the
history by exactly the user turn and the assistant turn (no tool batches),
and `reset` empties a nonempty history. -/
theorem C10_witness :
    (∃ ts, (∀ x ∈ ts, x.role = Role.Tool) ∧
      (Agent.process ⟨3, 3, "sys"⟩ (some (fun _ => "done")) none []
          ⟨[], AgentState.Idle, false⟩ "hi" []).st.history =
        [] ++ Message.user "hi" [] :: (ts ++ [Message.assistant "done"]) ∧
      ts.length =
        (Agent.process ⟨3, 3, "sys"⟩ (some (fun _ => "done")) none []
          ⟨[], AgentState.Idle, false⟩ "hi" []).batches.length) ∧
    (Agent.reset ⟨[Message.user "x" [], Message.assistant "y"],
        AgentState.Done, true⟩).history = [] :=
  ⟨(C10_append_only ⟨3, 3, "sys"⟩ (some (fun _ => "done")) none [] []
      AgentState.Idle false "hi" []).1 "done" rfl,
    (C10_append_only ⟨3, 3, "sys"⟩ (some (fun _ => "done")) none [] []
      AgentState.Idle false "hi" []).2 _⟩

/-! ### Claim C5 — malformed input -/

theorem containsLit_of_isSome {lit u : List Char}
    (h : (stripLit lit u).isSome = true) : containsLit lit u = true := by
  cases u with
  | nil => simpa [containsLit] using h
  | cons c t => simp [containsLit, h]

theorem containsLit_suffix {lit s u : List Char} (hsuf : u <:+ s)
    (h : containsLit lit u = true) : containsLit lit s = true := by
  induction s with
  | nil =>
    have : u = [] := List.eq_nil_of_suffix_nil hsuf
    subst this
    exact h
  | cons c t ih =>
    rcases List.suffix_cons_iff.mp hsuf with heq | hsuf'
    · subst heq; exact h
    · have := ih hsuf'
      simp [containsLit, this]

theorem upToLit_some_contains {lit u : List Char} {x : List Char × List Char}
    (h : upToLit lit u = some x) : containsLit lit u = true := by
  induction u generalizing x with
  | nil =>
    simp only [upToLit] at h
    cases hs : stripLit lit ([] : List Char) with
    | none => rw [hs] at h; simp at h
    | some r => exact containsLit_of_isSome (by simp [hs])
  | cons c t ih =>
    simp only [upToLit] at h
    cases hs : stripLit lit (c :: t) with
    | some r => exact containsLit_of_isSome (by simp [hs])
    | none =>
      rw [hs] at h
      cases hu : upToLit lit t with
      | none => rw [hu] at h; simp at h
      | some pr =>
        have := ih hu
        simp [containsLit, this]

theorem matchBlock_some_contains {s : List Char} {x : List Char × List Char × List Char}
    (h : matchBlock s = some x) :
    containsLit litOpen s = true ∧ containsLit litName s = true ∧
      containsLit litClose s = true := by
  unfold matchBlock at h
  cases h1 : stripLit litOpen s with
  | none => rw [h1] at h; exact absurd h (by simp)
  | some s1 =>
    rw [h1] at h
    simp only at h
    have hopen : containsLit litOpen s = true :=
      containsLit_of_isSome (by simp [h1])
    have hs1 : s1 <:+ s := stripLit_some_suffix h1
    cases h2 : stripLit litName (s1.dropWhile isWs) with
    | none => rw [h2] at h; exact absurd h (by simp)
    | some s3 =>
      rw [h2] at h
      simp only at h
      have hs1d : s1.dropWhile isWs <:+ s := (List.dropWhile_suffix isWs).trans hs1
      have hname : containsLit litName s = true :=
        containsLit_suffix hs1d (containsLit_of_isSome (by simp [h2]))
      have hs3 : s3 <:+ s := (stripLit_some_suffix h2).trans hs1d
      refine ⟨hopen, hname, ?_⟩
      split at h
      · exact absurd h (by simp)
      · set s4 := s3.dropWhile isWs with hs4
        set run := s4.takeWhile isWordChar with hrundef
        set s5 := s4.drop run.length with hs5
        have hs5suf : s5 <:+ s :=
          ((List.drop_suffix run.length s4).trans (List.dropWhile_suffix isWs)).trans hs3
        cases h3 : stripLit litArgs (s5.dropWhile isWs) with
        | some s7 =>
          rw [h3] at h
          simp only at h
          have hs7 : s7 <:+ s :=
            ((stripLit_some_suffix h3).trans (List.dropWhile_suffix isWs)).trans hs5suf
          cases h4 : upToLit litClose (s7.dropWhile isWs) with
          | none => rw [h4] at h; exact absurd h (by simp)
          | some pr =>
            have hc : containsLit litClose (s7.dropWhile isWs) = true :=
              upToLit_some_contains h4
            exact containsLit_suffix ((List.dropWhile_suffix isWs).trans hs7) hc
        | none =>
          rw [h3] at h
          simp only at h
          split at h
          · cases hs5m : s5 with
            | nil => rw [hs5m] at h; exact absurd h (by simp)
            | cons c s7 =>
              rw [hs5m] at h
              split at h
              · next s7b heq =>
                injection heq with heq1 heq2
                subst heq2
                cases h4 : upToLit litClose (s7.dropWhile isWs) with
                | none => rw [h4] at h; exact absurd h (by simp)
                | some pr =>
                  have hc : containsLit litClose (s7.dropWhile isWs) = true :=
                    upToLit_some_contains h4
                  have hs7 : s7 <:+ s := by
                    have h57 : s7 <:+ s5 := by
                      rw [hs5m]; exact List.suffix_cons c s7
                    exact h57.trans hs5suf
                  exact containsLit_suffix ((List.dropWhile_suffix isWs).trans hs7) hc
              · exact absurd h (by simp)
          · exact absurd h (by simp)

theorem scanBlocksF_nil_of_lacks {lit : List Char}
    (hml : ∀ (u : List Char) (x : List Char × List Char × List Char),
      matchBlock u = some x → containsLit lit u = true) :
    ∀ (f : Nat) (s : List Char), containsLit lit s = false → scanBlocksF f s = [] := by
  intro f
  induction f with
  | zero => intro s _; rfl
  | succ f ih =>
    intro s hlacks
    cases s with
    | nil => exact scanBlocksF_nil _
    | cons c t =>
      rw [scanBlocksF]
      cases hm : matchBlock (c :: t) with
      | some x =>
        have := hml (c :: t) x hm
        rw [this] at hlacks
        exact absurd hlacks (by simp)
      | none =>
        simp only [hm]
        apply ih
        simp only [containsLit, Bool.or_eq_false_iff] at hlacks
        exact hlacks.2

/-- C5 counterexample: an unterminated block can contribute a request.  In a
response holding an unterminated block (no `</tool_call>` of its own)
followed by a well-formed block, the lazy capture of the regex closes the
first block at the second block's terminator, so parse returns exactly one
request — named after the unterminated block and swallowing the well-formed
one into its argument text — instead of skipping the unterminated block and
returning the well-formed one. -/
theorem C5_counterexample :
    parse_tool_calls
        "<tool_call>\nname: a\narguments:\n x: 1\n<tool_call>\nname: b\narguments:\n y: 2\n</tool_call>"
      = [⟨"call_0", "a", [("x", "1"), ("name", "b"), ("arguments", "y: 2")]⟩] := by
  decide

/-- C5 (amended): the parser is a total function (it never raises); a
response with no `<tool_call>` opener anywhere — in particular fully
free-form text — parses to the empty sequence, as does a response with no
`name:` field anywhere and a response with no `</tool_call>` closer anywhere
(so an unterminated block with no later closer contributes no request).
When a closing delimiter does occur later in the text, an unterminated block
instead captures through it (see the counterexample). -/
theorem C5_malformed_skipped :
    (∀ s : String, containsLit litOpen s.toList = false → parse_tool_calls s = []) ∧
    (∀ s : String, containsLit litName s.toList = false → parse_tool_calls s = []) ∧
    (∀ s : String, containsLit litClose s.toList = false → parse_tool_calls s = []) := by
  refine ⟨?_, ?_, ?_⟩
  · intro s h
    unfold parse_tool_calls scanBlocks
    rw [scanBlocksF_nil_of_lacks (fun u x hm => (matchBlock_some_contains hm).1) _ _ h]
    rfl
  · intro s h
    unfold parse_tool_calls scanBlocks
    rw [scanBlocksF_nil_of_lacks (fun u x hm => (matchBlock_some_contains hm).2.1) _ _ h]
    rfl
  · intro s h
    unfold parse_tool_calls scanBlocks
    rw [scanBlocksF_nil_of_lacks (fun u x hm => (matchBlock_some_contains hm).2.2) _ _ h]
    rfl

/-- C5 witness: a response whose only block is never closed (and no closer
occurs anywhere) yields no requests, and fully free-form text yields no
requests. -/
theorem C5_witness :
    parse_tool_calls "I will try. <tool_call>\nname: a\narguments:\n x: 1\n and it never closes" = [] ∧
    parse_tool_calls "a plain answer with no tool syntax at all" = [] :=
  ⟨C5_malformed_skipped.2.2 _ (by decide), C5_malformed_skipped.1 _ (by decide)⟩

/-! ### Claim C4 — N well-formed blocks, sequential ids -/

/-- A block of tool-call syntax before rendering: a name and the raw
argument text. -/
structure RawBlock where
  name : List Char
  args : List Char

/-- The canonical text of one well-formed block, as in the prompt's own
template (tool_registry.cpp:46-51). -/
def renderBlock (b : RawBlock) : List Char :=
  litOpen ++ '\n' ::
    (litName ++ ' ' ::
      (b.name ++ '\n' ::
        (litArgs ++ '\n' :: (b.args ++ litClose))))

/-- A response text: blocks in order, each followed by free-form filler. -/
def renderChain : List (RawBlock × List Char) → List Char
  | [] => []
  | (b, sep) :: rest => renderBlock b ++ (sep ++ renderChain rest)

theorem upToLit_exact' {lit : List Char} {c0 : Char} {lt pre rest : List Char}
    (hlit : lit = c0 :: lt) (hpre : c0 ∉ pre) :
    upToLit lit (pre ++ (lit ++ rest)) = some (pre, rest) := by
  subst hlit
  have h : upToLit (c0 :: lt) (pre ++ (c0 :: lt) ++ rest) = some (pre, rest) :=
    upToLit_exact hpre
  rw [List.append_assoc] at h
  exact h

theorem matchBlock_render (b : RawBlock) (hne : b.name ≠ [])
    (hword : ∀ c ∈ b.name, isWordChar c = true) (hargs : '<' ∉ b.args)
    (t : List Char) :
    matchBlock (renderBlock b ++ t) =
      some (b.name, b.args.dropWhile isWs, t) := by
  obtain ⟨nh, nt, hbn⟩ : ∃ nh nt, b.name = nh :: nt := by
    cases hb : b.name with
    | nil => exact absurd hb hne
    | cons x xs => exact ⟨x, xs, rfl⟩
  have hnh : isWordChar nh = true := hword nh (by rw [hbn]; exact List.mem_cons_self nh nt)
  unfold matchBlock
  have e1 : stripLit litOpen (renderBlock b ++ t) =
      some ('\n' :: (litName ++ ' ' ::
        (b.name ++ '\n' :: (litArgs ++ '\n' :: (b.args ++ (litClose ++ t)))))) := by
    rw [renderBlock]
    simp only [List.append_assoc, List.cons_append]
    exact stripLit_of_append _ _
  rw [e1]
  simp only
  have e2 : ('\n' :: (litName ++ ' ' ::
      (b.name ++ '\n' :: (litArgs ++ '\n' :: (b.args ++ (litClose ++ t)))))).dropWhile isWs =
      litName ++ ' ' ::
        (b.name ++ '\n' :: (litArgs ++ '\n' :: (b.args ++ (litClose ++ t)))) := by
    rw [List.dropWhile_cons_of_pos (by decide)]
    exact List.dropWhile_cons_of_neg (by decide)
  rw [e2, stripLit_of_append]
  simp only
  have e4 : (' ' :: (b.name ++ '\n' ::
      (litArgs ++ '\n' :: (b.args ++ (litClose ++ t))))).dropWhile isWs =
      b.name ++ '\n' :: (litArgs ++ '\n' :: (b.args ++ (litClose ++ t))) := by
    rw [List.dropWhile_cons_of_pos (by decide), hbn, List.cons_append]
    exact List.dropWhile_cons_of_neg (by simp [word_not_ws hnh])
  rw [e4]
  have e5 : (b.name ++ '\n' ::
      (litArgs ++ '\n' :: (b.args ++ (litClose ++ t)))).takeWhile isWordChar = b.name :=
    takeWhile_append_of_all hword (by decide) _
  rw [e5]
  rw [if_neg hne]
  have e6 : (b.name ++ '\n' ::
      (litArgs ++ '\n' :: (b.args ++ (litClose ++ t)))).drop b.name.length =
      '\n' :: (litArgs ++ '\n' :: (b.args ++ (litClose ++ t))) := List.drop_left _ _
  rw [e6]
  have e7 : ('\n' :: (litArgs ++ '\n' :: (b.args ++ (litClose ++ t)))).dropWhile isWs =
      litArgs ++ '\n' :: (b.args ++ (litClose ++ t)) := by
    rw [List.dropWhile_cons_of_pos (by decide)]
    exact List.dropWhile_cons_of_neg (by decide)
  rw [e7, stripLit_of_append]
  simp only
  have e9 : ('\n' :: (b.args ++ (litClose ++ t))).dropWhile isWs =
      b.args.dropWhile isWs ++ (litClose ++ t) := by
    rw [List.dropWhile_cons_of_pos (by decide)]
    exact dropWhile_append_keep b.args (by decide) _
  rw [e9]
  have hpre : '<' ∉ b.args.dropWhile isWs :=
    fun hm => hargs (mem_of_mem_dropWhile hm)
  rw [show upToLit litClose (List.dropWhile isWs b.args ++ (litClose ++ t)) =
      some (List.dropWhile isWs b.args, t) from upToLit_exact' rfl hpre]

theorem matchBlock_head_ne {c : Char} (hc : c ≠ '<') (t : List Char) :
    matchBlock (c :: t) = none := by
  unfold matchBlock
  have h : stripLit litOpen (c :: t) = none := stripLit_head_ne hc
  rw [h]

theorem matchBlock_nil_eq : matchBlock [] = none := rfl

theorem scanBlocksF_succ_of_match {f : Nat} {s n a rest : List Char}
    (hm : matchBlock s = some (n, a, rest)) :
    scanBlocksF (f + 1) s = (n, a) :: scanBlocksF f rest := by
  cases s with
  | nil => rw [matchBlock_nil_eq] at hm; exact absurd hm (by simp)
  | cons c t =>
    rw [scanBlocksF, hm]

theorem scanF_skip :
    ∀ (sep : List Char) (f : Nat) (t : List Char), '<' ∉ sep →
      (sep ++ t).length ≤ f →
      scanBlocksF f (sep ++ t) = scanBlocksF t.length t := by
  intro sep
  induction sep with
  | nil =>
    intro f t _ hlen
    simp only [List.nil_append] at hlen ⊢
    exact scanBlocksF_adequate f t.length t hlen (le_refl _)
  | cons c cs ih =>
    intro f t hnot hlen
    cases f with
    | zero => simp at hlen
    | succ f =>
      have hc : c ≠ '<' := fun h => hnot (h ▸ List.mem_cons_self c cs)
      rw [List.cons_append, scanBlocksF, matchBlock_head_ne hc]
      simp only
      exact ih f t (fun h => hnot (List.mem_cons_of_mem c h))
        (by simp only [List.cons_append, List.length_cons] at hlen; omega)

theorem renderBlock_length_pos (b : RawBlock) : 0 < (renderBlock b).length := by
  rw [renderBlock]
  simp [litOpen]

theorem scanF_chain :
    ∀ (L : List (RawBlock × List Char)) (f : Nat),
      (∀ p ∈ L, p.1.name ≠ [] ∧ (∀ c ∈ p.1.name, isWordChar c = true) ∧
        '<' ∉ p.1.args ∧ '<' ∉ p.2) →
      (renderChain L).length ≤ f →
      scanBlocksF f (renderChain L) =
        L.map (fun p => (p.1.name, p.1.args.dropWhile isWs)) := by
  intro L
  induction L with
  | nil => intro f _ _; exact scanBlocksF_nil f
  | cons p rest ih =>
    intro f hL hlen
    obtain ⟨b, sep⟩ := p
    obtain ⟨hne, hword, hargs, hsep⟩ := hL (b, sep) (List.mem_cons_self _ _)
    cases f with
    | zero =>
      exfalso
      have := renderBlock_length_pos b
      simp only [renderChain, List.length_append] at hlen
      omega
    | succ f =>
      rw [renderChain,
        scanBlocksF_succ_of_match (matchBlock_render b hne hword hargs _)]
      have hlen2 : (sep ++ renderChain rest).length ≤ f := by
        have := renderBlock_length_pos b
        simp only [renderChain, List.length_append] at hlen ⊢
        omega
      rw [scanF_skip sep f (renderChain rest) hsep hlen2]
      rw [ih (renderChain rest).length
        (fun q hq => hL q (List.mem_cons_of_mem _ hq)) (le_refl _)]
      rfl

theorem numberCalls_length : ∀ (l : List (List Char × List Char)) (i : Nat),
    (numberCalls i l).length = l.length := by
  intro l
  induction l with
  | nil => intro i; rfl
  | cons p rest ih =>
    intro i
    obtain ⟨n, a⟩ := p
    rw [numberCalls]
    simp only [List.length_cons, ih]

theorem numberCalls_getElem? :
    ∀ (l : List (List Char × List Char)) (i j : Nat),
      (numberCalls i l)[j]? =
        (l[j]?).map (fun p =>
          ⟨"call_" ++ natStr (i + j), String.mk p.1, parseArguments p.2⟩) := by
  intro l
  induction l with
  | nil => intro i j; simp [numberCalls]
  | cons p rest ih =>
    intro i j
    obtain ⟨n, a⟩ := p
    rw [numberCalls]
    cases j with
    | zero => simp
    | succ j =>
      simp only [List.getElem?_cons_succ]
      rw [ih (i + 1) j]
      have : i + 1 + j = i + (j + 1) := by omega
      rw [this]

/-- C4: a response made of N well-formed blocks in order, each followed by
filler free of tool-call syntax, parses to exactly N requests in source
order: the i-th request carries the i-th block's name and the sequential id
`call_i`, freshly numbered from zero on this parse invocation (ids depend
only on the position inside one response, so they restart at `call_0` every
time the parser runs). -/
theorem C4_sequential_ids (sep0 : List Char) (L : List (RawBlock × List Char))
    (h0 : '<' ∉ sep0)
    (hL : ∀ p ∈ L, p.1.name ≠ [] ∧ (∀ c ∈ p.1.name, isWordChar c = true) ∧
      '<' ∉ p.1.args ∧ '<' ∉ p.2) :
    (parse_tool_calls (String.mk (sep0 ++ renderChain L))).length = L.length ∧
    (∀ i, i < L.length →
      ∃ c p, (parse_tool_calls (String.mk (sep0 ++ renderChain L)))[i]? = some c ∧
        L[i]? = some p ∧ c.id = "call_" ++ natStr i ∧
        c.name = String.mk p.1.name) := by
  have hscan : scanBlocks (sep0 ++ renderChain L) =
      L.map (fun p => (p.1.name, p.1.args.dropWhile isWs)) := by
    unfold scanBlocks
    rw [scanF_skip sep0 _ _ h0 (le_refl _)]
    exact scanF_chain L _ hL (le_refl _)
  have hparse : parse_tool_calls (String.mk (sep0 ++ renderChain L)) =
      numberCalls 0 (L.map (fun p => (p.1.name, p.1.args.dropWhile isWs))) := by
    unfold parse_tool_calls
    rw [show (String.mk (sep0 ++ renderChain L)).toList = sep0 ++ renderChain L
      from rfl, hscan]
  constructor
  · rw [hparse, numberCalls_length]
    simp
  · intro i hi
    rw [hparse]
    rw [numberCalls_getElem?]
    rw [List.getElem?_map]
    rw [List.getElem?_eq_getElem hi]
    exact ⟨_, L[i], rfl, rfl, by simp, rfl⟩

/-- The filler before the first block of the C4 witness response. -/
def c4Sep0 : List Char := "I will list files.\n".toList

/-- The two blocks of the C4 witness response. -/
def c4Blocks : List (RawBlock × List Char) :=
  [(⟨"list_directory".toList, "  path: .\n".toList⟩, "ok\n".toList),
   (⟨"read_file".toList, "  path: a.txt\n".toList⟩, [])]

/-- C4 witness: a response with two well-formed blocks parses to two
requests; the second carries id `call_1` and the second block's name. -/
theorem C4_witness :
    (parse_tool_calls (String.mk (c4Sep0 ++ renderChain c4Blocks))).length = 2 ∧
    (∃ c p,
      (parse_tool_calls (String.mk (c4Sep0 ++ renderChain c4Blocks)))[1]? = some c ∧
      c4Blocks[1]? = some p ∧ c.id = "call_" ++ natStr 1 ∧
      c.name = String.mk p.1.name) := by
  have h := C4_sequential_ids c4Sep0 c4Blocks (by decide) (by decide)
  exact ⟨h.1, h.2 1 (by decide)⟩
